import Mathlib

/-!
Verification of the lock-free primitives of the Data-Structures repository:
the SPSC framed byte ring buffer (src/queues/spsc.cpp), the SPMC multicast
ring buffer (the SPMCMulticast struct in src/sync/rcu.cpp), the Seqlock
(src/sync/seqlock.cpp) and the RCU protected pointer (src/sync/z.cpp and
src/sync/rcu.cpp).

Modelling conventions:
* Bytes are `Nat` values; buffers are `List Nat` whose length is the
  capacity `N` of the C++ template.
* The monotonically increasing `size_t`/`uint64_t` counters are modelled as
  unbounded `Nat`.  The C++ counters wrap at `2 ^ 64`; behaviour coincides
  as long as fewer than `2 ^ 64` bytes pass through a queue, and theorems
  that depend on machine width carry explicit `≤ 2 ^ 64` bounds.
* The 8-byte `size_t` length header written by `memcpy` is modelled as the
  little-endian base-256 digits of the payload size (`encodeHeader`), and
  the header read by `Pop` decodes them (`decodeHeader`).
* The two-`memcpy` wrap-around copy helpers `CopyIn`/`CopyOut` of
  ring_buffer_utils.hpp are translated segment by segment (`memcpyList` is
  one in-bounds `memcpy` into a list).
-/

/-- HEADER_SIZE of the C++ sources: `sizeof(size_t)` = 8 bytes. -/
def HEADER_SIZE : Nat := 8

/-- Little-endian base-256 digits: `natToBytes k n` is the `k`-byte
representation of `n` (the bytes `memcpy` takes from a `size_t`). -/
def natToBytes : Nat → Nat → List Nat
  | 0, _ => []
  | k + 1, n => n % 256 :: natToBytes k (n / 256)

/-- The 8-byte length header written by `Push`. -/
def encodeHeader (n : Nat) : List Nat := natToBytes 8 n

/-- Recombine little-endian base-256 digits into a `Nat`. -/
def bytesToNat : List Nat → Nat
  | [] => 0
  | b :: bs => b + 256 * bytesToNat bs

/-- The `size_t` value `Pop` reads back out of the 8 header bytes. -/
def decodeHeader (bs : List Nat) : Nat := bytesToNat bs

/-- One in-bounds `memcpy(dst + start, src, src.length)` on a byte list. -/
def memcpyList (dst : List Nat) (start : Nat) (src : List Nat) : List Nat :=
  dst.take start ++ src ++ dst.drop (start + src.length)

/-- CopyIn of ring_buffer_utils.hpp: `start = offset % N`,
`first = min(len, N - start)`, one `memcpy` of the first segment at `start`
and one `memcpy` of the remainder at the start of the array. -/
def CopyIn (b : List Nat) (offset : Nat) (src : List Nat) : List Nat :=
  let start := offset % b.length
  let first := min src.length (b.length - start)
  memcpyList (memcpyList b start (src.take first)) 0 (src.drop first)

/-- CopyOut of ring_buffer_utils.hpp: read `first` bytes at `start` and the
remaining `len - first` bytes from the start of the array. -/
def CopyOut (b : List Nat) (offset len : Nat) : List Nat :=
  let start := offset % b.length
  let first := min len (b.length - start)
  (b.drop start).take first ++ b.take (len - first)

/-- The byte stored at logical (monotonic) offset `p` of a ring buffer:
index `p % N` of the backing array. -/
def byteAt (b : List Nat) (p : Nat) : Nat := (b[p % b.length]?).getD 0

/-- The byte string `bytes` is stored at logical offset `p` of the ring. -/
def storedAt (b : List Nat) (p : Nat) (bytes : List Nat) : Prop :=
  ∀ i, i < bytes.length → byteAt b (p + i) = bytes.getD i 0

/-- State of the SPSC queue of src/queues/spsc.cpp: the two monotonic
counters and a backing array whose length is the capacity `N`. -/
structure SPSC where
  read_idx : Nat
  write_idx : Nat
  buffer : List Nat
deriving DecidableEq

/-- A freshly constructed `SPSC<n>`: zero counters, zeroed backing array. -/
def SPSC.init (n : Nat) : SPSC :=
  { read_idx := 0, write_idx := 0, buffer := List.replicate n 0 }

/-- SPSC::Push of src/queues/spsc.cpp: reject if the framed message can
never fit or does not fit now, otherwise copy the 8-byte header then the
payload at `write % N` and publish `write + total`. -/
def SPSC.Push (q : SPSC) (data : List Nat) : SPSC × Bool :=
  let N := q.buffer.length
  let payload_size := data.length
  let total_size := HEADER_SIZE + payload_size
  if total_size > N then (q, false)
  else if (q.write_idx - q.read_idx) + total_size > N then (q, false)
  else
    let offset := q.write_idx % N
    let b1 := CopyIn q.buffer offset (encodeHeader payload_size)
    let b2 := CopyIn b1 (offset + HEADER_SIZE) data
    ({ read_idx := q.read_idx, write_idx := q.write_idx + total_size, buffer := b2 }, true)

/-- SPSC::Pop of src/queues/spsc.cpp: empty when the counters are equal,
read the header at `read % N`, re-check against the published counter
(the defensive incomplete-write check), copy the payload out and advance
`read` by the framed size. -/
def SPSC.Pop (q : SPSC) : SPSC × Option (List Nat) :=
  let N := q.buffer.length
  if q.read_idx = q.write_idx then (q, none)
  else
    let offset := q.read_idx % N
    let payload_size := decodeHeader (CopyOut q.buffer offset HEADER_SIZE)
    let total_size := HEADER_SIZE + payload_size
    if q.read_idx + total_size > q.write_idx then (q, none)
    else
      let payload := CopyOut q.buffer (offset + HEADER_SIZE) payload_size
      ({ q with read_idx := q.read_idx + total_size }, some payload)

/-- Run a sequence of pushes; `some` final state if every Push returned
`true`, `none` as soon as one fails. -/
def pushAll : SPSC → List (List Nat) → Option SPSC
  | q, [] => some q
  | q, m :: rest =>
    match q.Push m with
    | (q1, true) => pushAll q1 rest
    | (_, false) => none

/-- Pop `k` times, collecting the returned messages (stopping at an empty
signal). -/
def popAll : SPSC → Nat → SPSC × List (List Nat)
  | q, 0 => (q, [])
  | q, k + 1 =>
    match q.Pop with
    | (q1, some m) =>
      let r := popAll q1 k
      (r.1, m :: r.2)
    | (q1, none) => (q1, [])

/-- Iterate Pop `k` times, keeping only the state. -/
def SPSC.iterPop : SPSC → Nat → SPSC
  | q, 0 => q
  | q, k + 1 => SPSC.iterPop (q.Pop).1 k

/-- Framed size of a message: 8-byte header plus payload. -/
def frameSize (m : List Nat) : Nat := HEADER_SIZE + m.length

/-- The bytes a message occupies in the ring: header then payload. -/
def frameBytes (m : List Nat) : List Nat := encodeHeader m.length ++ m

/-- The frames of the pending messages are stored back to back starting at
logical offset `p`. -/
def framesStored (b : List Nat) : Nat → List (List Nat) → Prop
  | _, [] => True
  | p, m :: rest => storedAt b p (frameBytes m) ∧ framesStored b (p + frameSize m) rest

/-- Representation invariant: the queue state `q` holds exactly the pending
messages `ms`, in order, with their frames stored contiguously (modulo
wrap-around) between the read and write counters. -/
def SPSC.Rep (q : SPSC) (ms : List (List Nat)) : Prop :=
  0 < q.buffer.length ∧
  q.buffer.length ≤ 2 ^ 64 ∧
  q.write_idx = q.read_idx + (ms.map frameSize).sum ∧
  q.write_idx - q.read_idx ≤ q.buffer.length ∧
  framesStored q.buffer q.read_idx ms

/-- Counter invariant of the SPSC queue: the occupied byte count
`write_idx - read_idx` lies in `[0, N]` (in the unbounded-counter model,
`read_idx ≤ write_idx` expresses that the occupancy is non-negative). -/
def SPSC.inv (q : SPSC) : Prop :=
  q.read_idx ≤ q.write_idx ∧ q.write_idx - q.read_idx ≤ q.buffer.length

/-- State of the SPMCMulticast struct of src/sync/rcu.cpp: two atomic
counters seen by the consumers and the producer-local write cursor. -/
structure SPMC where
  read_idx : Nat
  write_idx : Nat
  write_local_ctr : Nat
  buffer : List Nat
deriving DecidableEq

/-- The externally visible memory events SPMCMulticast::Push performs after
its capacity checks, in program order: the stores to the two atomic
counters and the two wrap-around copies. -/
inductive SPMCEvent where
  | storeWriteIdx (v : Nat)
  | copyHeader
  | copyPayload
  | storeReadIdx (v : Nat)
deriving DecidableEq

/-- SPMCMulticast::Push of src/sync/rcu.cpp, translated line by line; the
returned list records the stores and copies it performs, in program order.
Note the source increments `write_local_ctr` before the capacity check and
stores `write_idx` before either copy. -/
def SPMC.Push (q : SPMC) (data : List Nat) : SPMC × Bool × List SPMCEvent :=
  let N := q.buffer.length
  let payload_size := data.length
  let total_size := payload_size + HEADER_SIZE
  if total_size > N then (q, false, [])
  else
    let lc := q.write_local_ctr + total_size
    if q.write_idx - q.read_idx + total_size > N then
      ({ q with write_local_ctr := lc }, false, [])
    else
      let offset := q.write_idx % N
      let b1 := CopyIn q.buffer offset (encodeHeader payload_size)
      let b2 := CopyIn b1 (offset + HEADER_SIZE) data
      ({ read_idx := lc, write_idx := lc, write_local_ctr := lc, buffer := b2 }, true,
        [SPMCEvent.storeWriteIdx lc, SPMCEvent.copyHeader, SPMCEvent.copyPayload,
          SPMCEvent.storeReadIdx lc])

/-- Stores of counters the consumers can observe. -/
def isStoreEvt : SPMCEvent → Bool
  | SPMCEvent.storeWriteIdx _ => true
  | SPMCEvent.storeReadIdx _ => true
  | _ => false

/-- The two payload-copy steps. -/
def isCopyEvt : SPMCEvent → Bool
  | SPMCEvent.copyHeader => true
  | SPMCEvent.copyPayload => true
  | _ => false

/-- Formalisation of the claimed ordering: every store to a consumer-visible
counter occurs after both copy steps. -/
def storesAfterCopies (tr : List SPMCEvent) : Prop :=
  ∀ i, i < tr.length → ∀ j, j < tr.length →
    isStoreEvt (tr.getD i SPMCEvent.copyHeader) = true →
    isCopyEvt (tr.getD j SPMCEvent.copyHeader) = true → j < i

instance (tr : List SPMCEvent) : Decidable (storesAfterCopies tr) := by
  unfold storesAfterCopies
  infer_instance

/-- Seqlock of src/sync/seqlock.cpp: a `uint32` sequence counter and the
protected value.  `data` is a `std::atomic<T>` in the source, so each load
or store of it is a single indivisible event. -/
structure Seqlock (T : Type) where
  seq : Nat
  data : T

/-- The successful CAS of Seqlock::write: `seq` goes from the observed even
value `seq1` to `seq1 + 1` (uint32 arithmetic). -/
def writeBegin {T : Type} (s : Seqlock T) : Seqlock T :=
  { s with seq := (s.seq + 1) % 2 ^ 32 }

/-- The store `data = new_data` of Seqlock::write. -/
def writeData {T : Type} (s : Seqlock T) (v : T) : Seqlock T :=
  { s with data := v }

/-- The final store `seq = seq1 + 2` of Seqlock::write: one more than the
in-progress value `seq1 + 1` the counter holds at that point. -/
def writeEnd {T : Type} (s : Seqlock T) : Seqlock T :=
  { s with seq := (s.seq + 1) % 2 ^ 32 }

/-- A completed Seqlock::write from a quiescent state: CAS to odd, store the
value, store the even successor. -/
def seqlockWrite {T : Type} (s : Seqlock T) (v : T) : Seqlock T :=
  writeEnd (writeData (writeBegin s) v)

/-- All states the Seqlock passes through while the single writer performs
the writes `vs` in order, each write being its three atomic steps. -/
def writerTrace {T : Type} : Seqlock T → List T → List (Seqlock T)
  | s, [] => [s]
  | s, v :: vs =>
    s :: writeBegin s :: writeData (writeBegin s) v :: writerTrace (seqlockWrite s v) vs

/-- One iteration of the Seqlock::read loop against a writer trace: load
`seq` at trace point `i`, load `data` at point `j`, load `seq` again at
point `k` (program order forces `i ≤ j ≤ k`); the iteration returns the
value only if both sequence loads agree and are even, otherwise the loop
retries. -/
def readSample {T : Type} (tr : List (Seqlock T)) (dflt : Seqlock T) (i j k : Nat) : Option T :=
  let seq1 := (tr.getD i dflt).seq
  let d := (tr.getD j dflt).data
  let seq2 := (tr.getD k dflt).seq
  if seq1 = seq2 ∧ seq1 % 2 = 0 then some d else none

/-- State of the RCU of src/sync/z.cpp and src/sync/rcu.cpp: a heap of
allocated cells (addresses below `bound` may be live), the protected
pointer `current`, and the count of readers inside a read-scope. -/
structure RCUState (T : Type) where
  heap : Nat → Option T
  bound : Nat
  current : Nat
  reader_count : Nat

/-- What a ReadGuard dereferences: the snapshot of `current`, looked up in
the heap. -/
def RCUState.readValue {T : Type} (s : RCUState T) : Option T := s.heap s.current

/-- RCU::write: exchange `current` for the new pointer, wait for the active
readers to quiesce (`synchronize`, which terminates once `reader_count`
reaches 0 and changes no state), then free the old allocation. -/
def RCUState.write {T : Type} (s : RCUState T) (a : Nat) : RCUState T :=
  { s with current := a, heap := fun x => if x = s.current then none else s.heap x }

/-- RCU::update: load `current`, heap-allocate a copy of the value it points
to (`new T(*old_data)` at the fresh address `bound`), apply the mutator to
the copy in place, then publish the copy via `write`.  If `current` were
dangling the C++ dereference would be undefined; the model returns the
state unchanged and the theorems assume a live `current`. -/
def RCUState.update {T : Type} (s : RCUState T) (f : T → T) : RCUState T :=
  match s.heap s.current with
  | none => s
  | some v =>
    let a := s.bound
    let h1 : Nat → Option T := fun x => if x = a then some v else s.heap x
    let h2 : Nat → Option T := fun x => if x = a then (h1 x).map f else h1 x
    RCUState.write { s with heap := h2, bound := s.bound + 1 } a

/-! ### Lemmas about the byte-level helpers -/

theorem natToBytes_length (k n : Nat) : (natToBytes k n).length = k := by
  induction k generalizing n with
  | zero => rfl
  | succ k ih => simp [natToBytes, ih]

theorem encodeHeader_length (n : Nat) : (encodeHeader n).length = HEADER_SIZE :=
  natToBytes_length 8 n

theorem bytesToNat_natToBytes (k n : Nat) : bytesToNat (natToBytes k n) = n % 256 ^ k := by
  induction k generalizing n with
  | zero => simp [natToBytes, bytesToNat, Nat.mod_one]
  | succ k ih =>
    simp only [natToBytes, bytesToNat]
    rw [ih, Nat.pow_succ', Nat.mod_mul]

theorem decodeHeader_encodeHeader (n : Nat) (h : n < 2 ^ 64) :
    decodeHeader (encodeHeader n) = n := by
  have h2 : (256 : Nat) ^ 8 = 2 ^ 64 := by norm_num
  rw [decodeHeader, encodeHeader, bytesToNat_natToBytes, h2, Nat.mod_eq_of_lt h]

theorem memcpyList_length (dst src : List Nat) (start : Nat)
    (h : start + src.length ≤ dst.length) :
    (memcpyList dst start src).length = dst.length := by
  simp only [memcpyList, List.length_append, List.length_take, List.length_drop]
  omega

theorem memcpyList_getElem? (dst src : List Nat) (start j : Nat)
    (hle : start + src.length ≤ dst.length) :
    (memcpyList dst start src)[j]? =
      if j < start then dst[j]?
      else if j < start + src.length then src[j - start]?
      else dst[j]? := by
  have hs : start ≤ dst.length := by omega
  have hlt : (dst.take start).length = start := by
    simp [List.length_take]; omega
  have hts : (dst.take start ++ src).length = start + src.length := by
    simp [hlt]
  unfold memcpyList
  rw [List.getElem?_append, List.getElem?_append, hts, hlt]
  by_cases h1 : j < start
  · have h2 : j < start + src.length := by omega
    simp only [if_pos h1, if_pos h2]
    exact List.getElem?_take_of_lt h1
  · by_cases h2 : j < start + src.length
    · simp only [if_neg h1, if_pos h2]
    · simp only [if_neg h1, if_neg h2]
      rw [List.getElem?_drop]
      congr 1
      omega

theorem CopyIn_length (b src : List Nat) (off : Nat) (h : src.length ≤ b.length) :
    (CopyIn b off src).length = b.length := by
  rcases Nat.eq_zero_or_pos b.length with h0 | h0
  · have hb : b = [] := List.length_eq_zero.mp h0
    have hs : src = [] := List.length_eq_zero.mp (by omega)
    subst hb; subst hs
    simp [CopyIn, memcpyList]
  · simp only [CopyIn]
    set start := off % b.length with hstart
    set first := min src.length (b.length - start) with hfirst
    have hsl : start < b.length := Nat.mod_lt _ h0
    have htake : (src.take first).length = first := by
      simp [List.length_take]; omega
    have hdrop : (src.drop first).length = src.length - first := by
      simp [List.length_drop]
    have hin : start + (src.take first).length ≤ b.length := by
      rw [htake]; omega
    have hlen1 : (memcpyList b start (src.take first)).length = b.length :=
      memcpyList_length _ _ _ hin
    have hout : 0 + (src.drop first).length ≤ (memcpyList b start (src.take first)).length := by
      rw [hlen1, hdrop]; omega
    rw [memcpyList_length _ _ _ hout, hlen1]

theorem CopyIn_byteAt_in (b src : List Nat) (off i : Nat)
    (h0 : 0 < b.length) (hsrc : src.length ≤ b.length) (hi : i < src.length) :
    byteAt (CopyIn b off src) (off + i) = src.getD i 0 := by
  have hlen := CopyIn_length b src off hsrc
  simp only [byteAt, hlen]
  simp only [CopyIn]
  set N := b.length with hN
  set start := off % N with hstart
  set first := min src.length (N - start) with hfirst
  have hsl : start < N := Nat.mod_lt _ h0
  have htake : (src.take first).length = first := by
    simp [List.length_take]; omega
  have hdrop : (src.drop first).length = src.length - first := by
    simp [List.length_drop]
  have hin : start + (src.take first).length ≤ b.length := by
    rw [htake]; omega
  have hlen1 : (memcpyList b start (src.take first)).length = N :=
    memcpyList_length _ _ _ hin
  have hout : 0 + (src.drop first).length ≤ (memcpyList b start (src.take first)).length := by
    rw [hlen1, hdrop]; omega
  have hmod : (off + i) % N = (start + i) % N := ((Nat.mod_modEq off N).add_right i).symm
  rw [hmod]
  by_cases hcase : i < first
  · rw [Nat.mod_eq_of_lt (by omega : start + i < N)]
    rw [memcpyList_getElem? _ _ _ _ hout]
    have c2 : ¬ start + i < 0 + (src.drop first).length := by
      rw [hdrop]; omega
    rw [if_neg (by omega : ¬ start + i < 0), if_neg c2]
    rw [memcpyList_getElem? _ _ _ _ hin]
    have c4 : start + i < start + (src.take first).length := by rw [htake]; omega
    rw [if_neg (by omega : ¬ start + i < start), if_pos c4]
    have c5 : start + i - start = i := by omega
    rw [c5, List.getElem?_take_of_lt hcase, ← List.getD_eq_getElem?_getD]
  · have hf2 : first = N - start := by omega
    have e1 : (start + i) % N = start + i - N := by
      rw [Nat.mod_eq_sub_mod (by omega)]
      exact Nat.mod_eq_of_lt (by omega)
    have e2 : start + i - N = i - first := by omega
    rw [e1, e2]
    rw [memcpyList_getElem? _ _ _ _ hout]
    have c2 : i - first < 0 + (src.drop first).length := by
      rw [hdrop]; omega
    rw [if_neg (Nat.not_lt_zero _), if_pos c2]
    rw [Nat.sub_zero, List.getElem?_drop]
    have e3 : first + (i - first) = i := by omega
    rw [e3, ← List.getD_eq_getElem?_getD]

theorem CopyIn_byteAt_out (b src : List Nat) (off p : Nat)
    (h0 : 0 < b.length) (hsrc : src.length ≤ b.length)
    (hdisj : ∀ i, i < src.length → p % b.length ≠ (off + i) % b.length) :
    byteAt (CopyIn b off src) p = byteAt b p := by
  have hlen := CopyIn_length b src off hsrc
  simp only [byteAt, hlen]
  simp only [CopyIn]
  set N := b.length with hN
  set start := off % N with hstart
  set first := min src.length (N - start) with hfirst
  set j := p % N with hjdef
  have hsl : start < N := Nat.mod_lt _ h0
  have hj : j < N := Nat.mod_lt _ h0
  have htake : (src.take first).length = first := by
    simp [List.length_take]; omega
  have hdrop : (src.drop first).length = src.length - first := by
    simp [List.length_drop]
  have hin : start + (src.take first).length ≤ b.length := by
    rw [htake]; omega
  have hlen1 : (memcpyList b start (src.take first)).length = N :=
    memcpyList_length _ _ _ hin
  have hout : 0 + (src.drop first).length ≤ (memcpyList b start (src.take first)).length := by
    rw [hlen1, hdrop]; omega
  rw [memcpyList_getElem? _ _ _ _ hout]
  have c2 : ¬ j < 0 + (src.drop first).length := by
    intro hc
    rw [hdrop] at hc
    have hij : first + j < src.length := by omega
    apply hdisj (first + j) hij
    have hf2 : first = N - start := by omega
    have e2 : (off + (first + j)) % N = (start + (first + j)) % N :=
      ((Nat.mod_modEq off N).add_right _).symm
    have e3 : start + (first + j) = N + j := by omega
    rw [e2, e3, Nat.add_mod_left, Nat.mod_eq_of_lt hj]
  rw [if_neg (Nat.not_lt_zero _), if_neg c2]
  rw [memcpyList_getElem? _ _ _ _ hin]
  by_cases c4 : j < start
  · rw [if_pos c4]
  · have c5 : ¬ j < start + (src.take first).length := by
      rw [htake]
      intro hc
      have hij : j - start < src.length := by omega
      apply hdisj (j - start) hij
      have e2 : (off + (j - start)) % N = (start + (j - start)) % N :=
        ((Nat.mod_modEq off N).add_right _).symm
      have e3 : start + (j - start) = j := by omega
      rw [e2, e3, Nat.mod_eq_of_lt hj]
    rw [if_neg c4, if_neg c5]

theorem CopyOut_length (b : List Nat) (off len : Nat)
    (h0 : 0 < b.length) (hlen : len ≤ b.length) :
    (CopyOut b off len).length = len := by
  simp only [CopyOut]
  have hsl : off % b.length < b.length := Nat.mod_lt _ h0
  simp [List.length_take, List.length_drop]
  omega

theorem CopyOut_getElem? (b : List Nat) (off len i : Nat)
    (h0 : 0 < b.length) (hlen : len ≤ b.length) (hi : i < len) :
    (CopyOut b off len)[i]? = b[(off + i) % b.length]? := by
  simp only [CopyOut]
  set N := b.length with hN
  set start := off % N with hstart
  set first := min len (N - start) with hfirst
  have hsl : start < N := Nat.mod_lt _ h0
  have hmod : (off + i) % N = (start + i) % N := ((Nat.mod_modEq off N).add_right i).symm
  rw [hmod]
  have hlen1 : ((b.drop start).take first).length = first := by
    simp [List.length_take, List.length_drop]; omega
  by_cases hc : i < first
  · rw [Nat.mod_eq_of_lt (by omega : start + i < N)]
    rw [List.getElem?_append_left (by rw [hlen1]; exact hc)]
    rw [List.getElem?_take_of_lt hc, List.getElem?_drop]
  · have hf2 : first = N - start := by omega
    rw [List.getElem?_append_right (by rw [hlen1]; omega)]
    rw [hlen1]
    rw [List.getElem?_take_of_lt (by omega : i - first < len - first)]
    have e : (start + i) % N = i - first := by
      rw [Nat.mod_eq_sub_mod (by omega), Nat.mod_eq_of_lt (by omega)]
      omega
    rw [e]

theorem CopyOut_spec (b : List Nat) (off len : Nat)
    (h0 : 0 < b.length) (hlen : len ≤ b.length) :
    CopyOut b off len = (List.range len).map fun i => byteAt b (off + i) := by
  apply List.ext_getElem?
  intro n
  by_cases hn : n < len
  · rw [CopyOut_getElem? b off len n h0 hlen hn]
    have hr : n < ((List.range len).map fun i => byteAt b (off + i)).length := by
      simp [hn]
    rw [List.getElem?_eq_getElem hr]
    simp only [List.getElem_map, List.getElem_range]
    have hlt : (off + n) % b.length < b.length := Nat.mod_lt _ h0
    simp [byteAt, List.getElem?_eq_getElem hlt]
  · rw [List.getElem?_eq_none (by rw [CopyOut_length b off len h0 hlen]; omega),
      List.getElem?_eq_none (by simp; omega)]

theorem map_range_getD (xs : List Nat) (k : Nat) (h : xs.length = k) :
    ((List.range k).map fun i => xs.getD i 0) = xs := by
  apply List.ext_getElem?
  intro n
  by_cases hn : n < k
  · have h1 : n < ((List.range k).map fun i => xs.getD i 0).length := by simp [hn]
    rw [List.getElem?_eq_getElem h1, List.getElem?_eq_getElem (by omega : n < xs.length)]
    simp only [List.getElem_map, List.getElem_range]
    rw [List.getD_eq_getElem?_getD, List.getElem?_eq_getElem (by omega : n < xs.length)]
    simp
  · rw [List.getElem?_eq_none (by simp; omega), List.getElem?_eq_none (by omega)]

theorem byteAt_mod_add (b : List Nat) (p i : Nat) :
    byteAt b (p % b.length + i) = byteAt b (p + i) := by
  simp only [byteAt]
  congr 2
  exact (Nat.mod_modEq p b.length).add_right i

theorem mod_ne_of_between {N a d : Nat} (h1 : 0 < d) (h2 : d < N) :
    a % N ≠ (a + d) % N := by
  intro h
  have hdvd : N ∣ (a + d) - a := (Nat.modEq_iff_dvd' (Nat.le_add_right a d)).mp h
  rw [Nat.add_sub_cancel_left] at hdvd
  have := Nat.le_of_dvd h1 hdvd
  omega

theorem byteAt_congr_idx (b : List Nat) (p p2 : Nat) (h : p % b.length = p2 % b.length) :
    byteAt b p = byteAt b p2 := by
  simp [byteAt, h]

theorem frameBytes_length (m : List Nat) : (frameBytes m).length = frameSize m := by
  simp [frameBytes, frameSize, encodeHeader_length, HEADER_SIZE]

theorem frameBytes_getD_lt (m : List Nat) (i : Nat) (h : i < HEADER_SIZE) :
    (frameBytes m).getD i 0 = (encodeHeader m.length).getD i 0 := by
  rw [frameBytes, List.getD_eq_getElem?_getD,
    List.getElem?_append_left (by rw [encodeHeader_length]; exact h),
    ← List.getD_eq_getElem?_getD]

theorem frameBytes_getD_ge (m : List Nat) (i : Nat) :
    (frameBytes m).getD (HEADER_SIZE + i) 0 = m.getD i 0 := by
  rw [frameBytes, List.getD_eq_getElem?_getD,
    List.getElem?_append_right (by rw [encodeHeader_length]; omega)]
  rw [encodeHeader_length]
  have e : HEADER_SIZE + i - HEADER_SIZE = i := by omega
  rw [e, ← List.getD_eq_getElem?_getD]

theorem framesStored_congr (b b2 : List Nat) (ms : List (List Nat)) :
    ∀ p, (∀ s, s < (ms.map frameSize).sum → byteAt b2 (p + s) = byteAt b (p + s)) →
    framesStored b p ms → framesStored b2 p ms := by
  induction ms with
  | nil => intro p _ _; trivial
  | cons m rest ih =>
    intro p hpres h
    have hsum : ((m :: rest).map frameSize).sum = frameSize m + (rest.map frameSize).sum := by
      simp
    refine ⟨?_, ?_⟩
    · intro i hi
      rw [frameBytes_length] at hi
      rw [hpres i (by omega)]
      exact h.1 i (by rw [frameBytes_length]; omega)
    · refine ih (p + frameSize m) ?_ h.2
      intro s hs
      have e : p + frameSize m + s = p + (frameSize m + s) := by omega
      rw [e]
      exact hpres (frameSize m + s) (by omega)

theorem framesStored_append (b : List Nat) (ms : List (List Nat)) (m : List Nat) :
    ∀ p, framesStored b p ms → storedAt b (p + (ms.map frameSize).sum) (frameBytes m) →
    framesStored b p (ms ++ [m]) := by
  induction ms with
  | nil =>
    intro p _ hst
    exact ⟨by simpa using hst, trivial⟩
  | cons m0 rest ih =>
    intro p h hst
    have e : p + ((m0 :: rest).map frameSize).sum
        = (p + frameSize m0) + (rest.map frameSize).sum := by
      simp; omega
    rw [e] at hst
    exact ⟨h.1, ih (p + frameSize m0) h.2 hst⟩

theorem SPSC.push_rep (q : SPSC) (ms : List (List Nat)) (m : List Nat)
    (hrep : q.Rep ms) (hsucc : (q.Push m).2 = true) :
    (q.Push m).1.Rep (ms ++ [m]) := by
  obtain ⟨h0, h64, hsum, hcap, hfs⟩ := hrep
  by_cases g1 : HEADER_SIZE + m.length > q.buffer.length
  · simp [SPSC.Push, g1] at hsucc
  by_cases g2 : (q.write_idx - q.read_idx) + (HEADER_SIZE + m.length) > q.buffer.length
  · simp [SPSC.Push, g1, g2] at hsucc
  have hpush : q.Push m =
      ({ read_idx := q.read_idx,
         write_idx := q.write_idx + (HEADER_SIZE + m.length),
         buffer := CopyIn
           (CopyIn q.buffer (q.write_idx % q.buffer.length) (encodeHeader m.length))
           (q.write_idx % q.buffer.length + HEADER_SIZE) m }, true) := by
    simp [SPSC.Push, g1, g2]
  rw [hpush]
  have hhdr : (encodeHeader m.length).length ≤ q.buffer.length := by
    rw [encodeHeader_length]; omega
  have hb1 : (CopyIn q.buffer (q.write_idx % q.buffer.length)
      (encodeHeader m.length)).length = q.buffer.length :=
    CopyIn_length _ _ _ hhdr
  have hm1 : m.length ≤ (CopyIn q.buffer (q.write_idx % q.buffer.length)
      (encodeHeader m.length)).length := by
    rw [hb1]; omega
  have hb2 : (CopyIn
      (CopyIn q.buffer (q.write_idx % q.buffer.length) (encodeHeader m.length))
      (q.write_idx % q.buffer.length + HEADER_SIZE) m).length = q.buffer.length := by
    rw [CopyIn_length _ _ _ hm1, hb1]
  have hW : q.write_idx = q.read_idx + (ms.map frameSize).sum := hsum
  refine ⟨?_, ?_, ?_, ?_, ?_⟩
  · simpa [hb2] using h0
  · simpa [hb2] using h64
  · simp only [List.map_append, List.sum_append, List.map_cons, List.sum_cons,
      List.map_nil, List.sum_nil, frameSize]
    omega
  · simp only
    omega
  · simp only
    -- preservation of the old frames plus storage of the new frame
    have hpres : ∀ s, s < (ms.map frameSize).sum →
        byteAt (CopyIn
          (CopyIn q.buffer (q.write_idx % q.buffer.length) (encodeHeader m.length))
          (q.write_idx % q.buffer.length + HEADER_SIZE) m) (q.read_idx + s)
        = byteAt q.buffer (q.read_idx + s) := by
      intro s hs
      have step2 : byteAt (CopyIn
          (CopyIn q.buffer (q.write_idx % q.buffer.length) (encodeHeader m.length))
          (q.write_idx % q.buffer.length + HEADER_SIZE) m) (q.read_idx + s)
          = byteAt (CopyIn q.buffer (q.write_idx % q.buffer.length)
              (encodeHeader m.length)) (q.read_idx + s) := by
        apply CopyIn_byteAt_out _ _ _ _ (by rw [hb1]; exact h0) hm1
        intro i hi
        rw [hb1]
        intro hcontra
        have e1 : (q.write_idx % q.buffer.length + HEADER_SIZE + i) % q.buffer.length
            = (q.write_idx + (HEADER_SIZE + i)) % q.buffer.length := by
          rw [Nat.add_assoc]
          exact (Nat.mod_modEq q.write_idx q.buffer.length).add_right (HEADER_SIZE + i)
        rw [e1] at hcontra
        have e2 : q.write_idx + (HEADER_SIZE + i)
            = (q.read_idx + s) + ((ms.map frameSize).sum - s + (HEADER_SIZE + i)) := by
          omega
        rw [e2] at hcontra
        exact mod_ne_of_between (by omega) (by omega) hcontra
      rw [step2]
      apply CopyIn_byteAt_out _ _ _ _ h0 hhdr
      intro i hi
      rw [encodeHeader_length] at hi
      intro hcontra
      have e1 : (q.write_idx % q.buffer.length + i) % q.buffer.length
          = (q.write_idx + i) % q.buffer.length :=
        (Nat.mod_modEq q.write_idx q.buffer.length).add_right i
      rw [e1] at hcontra
      have e2 : q.write_idx + i
          = (q.read_idx + s) + ((ms.map frameSize).sum - s + i) := by
        omega
      rw [e2] at hcontra
      exact mod_ne_of_between (by omega) (by omega) hcontra
    apply framesStored_append
    · exact framesStored_congr _ _ _ _ hpres hfs
    · rw [← hW]
      intro i hi
      rw [frameBytes_length] at hi
      simp only [frameSize] at hi
      by_cases hc : i < HEADER_SIZE
      · -- header byte: preserved by the payload copy, written by the header copy
        have step2 : byteAt (CopyIn
            (CopyIn q.buffer (q.write_idx % q.buffer.length) (encodeHeader m.length))
            (q.write_idx % q.buffer.length + HEADER_SIZE) m) (q.write_idx + i)
            = byteAt (CopyIn q.buffer (q.write_idx % q.buffer.length)
                (encodeHeader m.length)) (q.write_idx + i) := by
          apply CopyIn_byteAt_out _ _ _ _ (by rw [hb1]; exact h0) hm1
          intro i2 hi2
          rw [hb1]
          intro hcontra
          have e1 : (q.write_idx % q.buffer.length + HEADER_SIZE + i2) % q.buffer.length
              = (q.write_idx + (HEADER_SIZE + i2)) % q.buffer.length := by
            rw [Nat.add_assoc]
            exact (Nat.mod_modEq q.write_idx q.buffer.length).add_right (HEADER_SIZE + i2)
          rw [e1] at hcontra
          have e2 : q.write_idx + (HEADER_SIZE + i2)
              = (q.write_idx + i) + (HEADER_SIZE + i2 - i) := by omega
          rw [e2] at hcontra
          exact mod_ne_of_between (by omega) (by omega) hcontra
        rw [step2]
        have e3 : byteAt (CopyIn q.buffer (q.write_idx % q.buffer.length)
            (encodeHeader m.length)) (q.write_idx + i)
            = byteAt (CopyIn q.buffer (q.write_idx % q.buffer.length)
                (encodeHeader m.length)) (q.write_idx % q.buffer.length + i) := by
          apply byteAt_congr_idx
          rw [hb1]
          exact ((Nat.mod_modEq q.write_idx q.buffer.length).add_right i).symm
        rw [e3]
        rw [CopyIn_byteAt_in _ _ _ _ h0 hhdr (by rw [encodeHeader_length]; exact hc)]
        rw [frameBytes_getD_lt m i hc]
      · -- payload byte
        have e0 : i = HEADER_SIZE + (i - HEADER_SIZE) := by omega
        have step1 : byteAt (CopyIn
            (CopyIn q.buffer (q.write_idx % q.buffer.length) (encodeHeader m.length))
            (q.write_idx % q.buffer.length + HEADER_SIZE) m) (q.write_idx + i)
            = byteAt (CopyIn
              (CopyIn q.buffer (q.write_idx % q.buffer.length) (encodeHeader m.length))
              (q.write_idx % q.buffer.length + HEADER_SIZE) m)
              ((q.write_idx % q.buffer.length + HEADER_SIZE) + (i - HEADER_SIZE)) := by
          apply byteAt_congr_idx
          rw [CopyIn_length _ _ _ hm1, hb1]
          have e1 : q.write_idx % q.buffer.length + HEADER_SIZE + (i - HEADER_SIZE)
              = q.write_idx % q.buffer.length + i := by omega
          have e2 : (q.write_idx % q.buffer.length + i) % q.buffer.length
              = (q.write_idx + i) % q.buffer.length :=
            (Nat.mod_modEq q.write_idx q.buffer.length).add_right i
          rw [e1, e2]
        rw [step1]
        rw [CopyIn_byteAt_in _ _ _ _ (by rw [hb1]; exact h0) hm1 (by omega)]
        conv_rhs => rw [e0]
        rw [frameBytes_getD_ge]

theorem SPSC.pop_rep (q : SPSC) (m : List Nat) (ms : List (List Nat))
    (hrep : q.Rep (m :: ms)) :
    q.Pop = ({ q with read_idx := q.read_idx + frameSize m }, some m) ∧
    ({ q with read_idx := q.read_idx + frameSize m } : SPSC).Rep ms := by
  obtain ⟨h0, h64, hsum, hcap, hfs⟩ := hrep
  have hsumc : ((m :: ms).map frameSize).sum = frameSize m + (ms.map frameSize).sum := by
    simp
  rw [hsumc] at hsum
  have h8 : frameSize m = HEADER_SIZE + m.length := rfl
  have hH8 : HEADER_SIZE = 8 := rfl
  have hfit : frameSize m ≤ q.buffer.length := by omega
  have hne : q.read_idx ≠ q.write_idx := by omega
  have hH : HEADER_SIZE ≤ q.buffer.length := by omega
  have hm64 : m.length < 2 ^ 64 := by omega
  have hplen : m.length ≤ q.buffer.length := by omega
  have hhead : CopyOut q.buffer (q.read_idx % q.buffer.length) HEADER_SIZE
      = encodeHeader m.length := by
    rw [CopyOut_spec _ _ _ h0 hH]
    have hpt : ∀ i ∈ List.range HEADER_SIZE,
        byteAt q.buffer (q.read_idx % q.buffer.length + i)
        = (encodeHeader m.length).getD i 0 := by
      intro i hmem
      have hilt := List.mem_range.mp hmem
      rw [byteAt_mod_add]
      rw [hfs.1 i (by rw [frameBytes_length]; omega)]
      exact frameBytes_getD_lt m i hilt
    rw [List.map_congr_left hpt, map_range_getD _ _ (encodeHeader_length m.length)]
  have hpay : CopyOut q.buffer (q.read_idx % q.buffer.length + HEADER_SIZE) m.length
      = m := by
    rw [CopyOut_spec _ _ _ h0 hplen]
    have hpt : ∀ i ∈ List.range m.length,
        byteAt q.buffer (q.read_idx % q.buffer.length + HEADER_SIZE + i)
        = m.getD i 0 := by
      intro i hmem
      have hilt := List.mem_range.mp hmem
      have e1 : byteAt q.buffer (q.read_idx % q.buffer.length + HEADER_SIZE + i)
          = byteAt q.buffer (q.read_idx + (HEADER_SIZE + i)) := by
        apply byteAt_congr_idx
        have e : q.read_idx % q.buffer.length + HEADER_SIZE + i
            = q.read_idx % q.buffer.length + (HEADER_SIZE + i) := by omega
        rw [e]
        exact (Nat.mod_modEq q.read_idx q.buffer.length).add_right (HEADER_SIZE + i)
      rw [e1]
      rw [hfs.1 (HEADER_SIZE + i) (by rw [frameBytes_length]; omega)]
      exact frameBytes_getD_ge m i
    rw [List.map_congr_left hpt, map_range_getD m m.length rfl]
  have hpop : q.Pop = ({ q with read_idx := q.read_idx + frameSize m }, some m) := by
    simp only [SPSC.Pop]
    rw [if_neg hne, hhead, decodeHeader_encodeHeader m.length hm64]
    have hg2 : ¬ q.read_idx + (HEADER_SIZE + m.length) > q.write_idx := by omega
    rw [if_neg hg2, hpay, h8]
  refine ⟨hpop, h0, h64, ?_, ?_, hfs.2⟩
  · show q.write_idx = (q.read_idx + frameSize m) + (ms.map frameSize).sum
    omega
  · show q.write_idx - (q.read_idx + frameSize m) ≤ q.buffer.length
    omega

theorem SPSC.pop_empty (q : SPSC) (hrep : q.Rep []) : q.Pop = (q, none) := by
  obtain ⟨h0, h64, hsum, hcap, hfs⟩ := hrep
  have he : q.read_idx = q.write_idx := by simp at hsum; omega
  simp [SPSC.Pop, he]

theorem popAll_succ (q : SPSC) (k : Nat) (q1 : SPSC) (m : List Nat)
    (h : q.Pop = (q1, some m)) :
    popAll q (k + 1) = ((popAll q1 k).1, m :: (popAll q1 k).2) := by
  simp only [popAll]
  rw [h]

theorem popAll_rep (ms1 : List (List Nat)) :
    ∀ q ms2, q.Rep (ms1 ++ ms2) →
      (popAll q ms1.length).2 = ms1 ∧ ((popAll q ms1.length).1).Rep ms2 := by
  induction ms1 with
  | nil =>
    intro q ms2 hrep
    refine ⟨rfl, ?_⟩
    simpa using hrep
  | cons m rest ih =>
    intro q ms2 hrep
    have hrep2 : q.Rep (m :: (rest ++ ms2)) := by simpa using hrep
    obtain ⟨hpop, hrepNext⟩ := SPSC.pop_rep q m (rest ++ ms2) hrep2
    rw [List.length_cons, popAll_succ q rest.length _ m hpop]
    have hres := ih _ ms2 hrepNext
    exact ⟨by rw [hres.1], hres.2⟩

theorem pushAll_rep (new : List (List Nat)) :
    ∀ q ms q2, q.Rep ms → pushAll q new = some q2 → q2.Rep (ms ++ new) := by
  induction new with
  | nil =>
    intro q ms q2 hrep hp
    simp only [pushAll, Option.some.injEq] at hp
    subst hp
    simpa using hrep
  | cons m rest ih =>
    intro q ms q2 hrep hp
    simp only [pushAll] at hp
    rcases hP : q.Push m with ⟨q1, b⟩
    rw [hP] at hp
    cases b with
    | false => simp at hp
    | true =>
      have hrep1 : q1.Rep (ms ++ [m]) := by
        have hr := SPSC.push_rep q ms m hrep (by rw [hP])
        rwa [hP] at hr
      have hres := ih q1 (ms ++ [m]) q2 hrep1 hp
      have e : (ms ++ [m]) ++ rest = ms ++ (m :: rest) := by simp
      rwa [e] at hres

theorem SPSC.rep_init (n : Nat) (h1 : 0 < n) (h2 : n ≤ 2 ^ 64) : (SPSC.init n).Rep [] :=
  ⟨by simpa [SPSC.init] using h1, by simpa [SPSC.init] using h2,
    by simp [SPSC.init], by simp [SPSC.init], trivial⟩

theorem CopyIn_nil (b : List Nat) (off : Nat) : CopyIn b off [] = b := by
  simp [CopyIn, memcpyList, List.take_append_drop]

/-! ### Claim theorems -/

/-- C1: for every sequence of messages pushed into an SPSC framed ring
buffer where every Push returns true — starting from any state that
represents an empty queue, which includes every wrap-around position of the
counters — popping the same number of times yields exactly those messages,
in push order, each byte-identical to the payload that was pushed. -/
theorem spsc_fifo_roundtrip (q : SPSC) (ms : List (List Nat)) (q2 : SPSC)
    (hrep : q.Rep []) (hpush : pushAll q ms = some q2) :
    (popAll q2 ms.length).2 = ms := by
  have hrep2 : q2.Rep ms := by
    have h := pushAll_rep ms q [] q2 hrep hpush
    simpa using h
  have h := popAll_rep ms q2 [] (by simpa using hrep2)
  exact h.1

/-- Witness for spsc_fifo_roundtrip: a concrete queue of capacity 32 and
three concrete messages. -/
theorem spsc_fifo_roundtrip_witness :
    (popAll ((pushAll (SPSC.init 32) [[1, 2, 3], [4], []]).getD (SPSC.init 32)) 3).2
      = [[1, 2, 3], [4], []] := by
  have hp : pushAll (SPSC.init 32) [[1, 2, 3], [4], []]
      = some ((pushAll (SPSC.init 32) [[1, 2, 3], [4], []]).getD (SPSC.init 32)) := by
    decide
  exact spsc_fifo_roundtrip (SPSC.init 32) [[1, 2, 3], [4], []] _
    (SPSC.rep_init 32 (by norm_num) (by norm_num)) hp

/-- C2 counterexample: a concrete successful SPMCMulticast::Push whose
event trace violates the claimed ordering — the store to the
consumer-visible `write_idx` happens before both copy steps, so it is false
that no counter visible to consumers is stored before the copies
complete. -/
theorem spmc_publish_after_copy_cex :
    ((SPMC.Push ⟨0, 0, 0, List.replicate 16 0⟩ [1]).2.1 = true) ∧
    ¬ storesAfterCopies ((SPMC.Push ⟨0, 0, 0, List.replicate 16 0⟩ [1]).2.2) := by
  decide

/-- C2 (amended): the trace of every successful SPMCMulticast::Push is
exactly storeWriteIdx, copyHeader, copyPayload, storeReadIdx — the counter
stored only after both copy steps complete is `read_idx`, which in this
design (the readable range is bounded by the read counter, per the source
comment) is the published boundary consumers observe, while `write_idx` is
stored before the copies as the in-flight cursor. -/
theorem spmc_publish_after_copy (p : SPMC) (d : List Nat)
    (h : (p.Push d).2.1 = true) :
    (p.Push d).2.2 =
      [SPMCEvent.storeWriteIdx (p.write_local_ctr + (d.length + HEADER_SIZE)),
        SPMCEvent.copyHeader, SPMCEvent.copyPayload,
        SPMCEvent.storeReadIdx (p.write_local_ctr + (d.length + HEADER_SIZE))] := by
  by_cases g1 : d.length + HEADER_SIZE > p.buffer.length
  · simp [SPMC.Push, g1] at h
  by_cases g2 : p.write_idx - p.read_idx + (d.length + HEADER_SIZE) > p.buffer.length
  · simp [SPMC.Push, g1, g2] at h
  simp [SPMC.Push, g1, g2]

/-- Witness for spmc_publish_after_copy at a concrete push. -/
theorem spmc_publish_after_copy_witness :
    (SPMC.Push ⟨0, 0, 0, List.replicate 16 0⟩ [1]).2.2 =
      [SPMCEvent.storeWriteIdx 9, SPMCEvent.copyHeader, SPMCEvent.copyPayload,
        SPMCEvent.storeReadIdx 9] :=
  spmc_publish_after_copy ⟨0, 0, 0, List.replicate 16 0⟩ [1] (by decide)

/-- C3 counterexample: an SPMCMulticast::Push rejected for insufficient
free space returns false but leaves the producer-local write cursor
advanced (here from 16 to 24), refuting the claim that every counter of
the queue is unchanged. -/
theorem push_fail_leaves_counters_cex :
    ((SPMC.Push ⟨0, 16, 16, List.replicate 16 0⟩ []).2.1 = false) ∧
    ((SPMC.Push ⟨0, 16, 16, List.replicate 16 0⟩ []).1.write_local_ctr ≠ 16) := by
  decide

/-- C3 (amended): a rejected push returns false and leaves the read and
write counters unchanged; for the SPSC every counter is unchanged in both
failure cases, and for the SPMC the state is fully unchanged when
`total > N`, but when the failure is due to insufficient free space the
producer-local write cursor — incremented before the capacity check —
remains advanced by `total`. -/
theorem push_fail_leaves_counters :
    (∀ (q : SPSC) (d : List Nat),
      HEADER_SIZE + d.length > q.buffer.length ∨
        (q.write_idx - q.read_idx) + (HEADER_SIZE + d.length) > q.buffer.length →
      q.Push d = (q, false)) ∧
    (∀ (p : SPMC) (d : List Nat),
      d.length + HEADER_SIZE > p.buffer.length →
      p.Push d = (p, false, [])) ∧
    (∀ (p : SPMC) (d : List Nat),
      d.length + HEADER_SIZE ≤ p.buffer.length →
      p.write_idx - p.read_idx + (d.length + HEADER_SIZE) > p.buffer.length →
      p.Push d = (⟨p.read_idx, p.write_idx,
        p.write_local_ctr + (d.length + HEADER_SIZE), p.buffer⟩, false, [])) := by
  refine ⟨?_, ?_, ?_⟩
  · intro q d h
    rcases h with h | h
    · simp [SPSC.Push, h]
    · by_cases g1 : HEADER_SIZE + d.length > q.buffer.length
      · simp [SPSC.Push, g1]
      · simp [SPSC.Push, g1, h]
  · intro p d h
    simp [SPMC.Push, h]
  · intro p d h1 h2
    have g1 : ¬ d.length + HEADER_SIZE > p.buffer.length := by omega
    simp [SPMC.Push, g1, h2]

/-- Witness for push_fail_leaves_counters: the three failure shapes at
concrete queues. -/
theorem push_fail_leaves_counters_witness :
    (SPSC.init 16).Push (List.replicate 9 1) = (SPSC.init 16, false) ∧
    SPMC.Push ⟨0, 0, 0, List.replicate 4 0⟩ [1] =
      (⟨0, 0, 0, List.replicate 4 0⟩, false, []) ∧
    SPMC.Push ⟨5, 13, 13, List.replicate 16 0⟩ [1] =
      (⟨5, 13, 13 + (1 + HEADER_SIZE), List.replicate 16 0⟩, false, []) :=
  ⟨push_fail_leaves_counters.1 (SPSC.init 16) (List.replicate 9 1) (Or.inl (by decide)),
   push_fail_leaves_counters.2.1 _ _ (by decide),
   push_fail_leaves_counters.2.2 _ _ (by decide) (by decide)⟩

/-- C4: Pop either returns a message and advances the read counter by
exactly 8 plus the payload length, leaving the write counter and buffer
unchanged, or returns the empty signal and leaves the state unchanged; the
empty signal is returned exactly when the counters are equal or when the
decoded length header would reach past the write counter (the defensive
incomplete-write check), and popping an empty queue any number of times
never mutates the state. -/
theorem spsc_pop_contract (q : SPSC)
    (h0 : 0 < q.buffer.length)
    (h1 : q.read_idx ≤ q.write_idx)
    (h2 : q.write_idx - q.read_idx ≤ q.buffer.length) :
    ((q.Pop).2 = none → (q.Pop).1 = q) ∧
    (∀ m, (q.Pop).2 = some m →
      (q.Pop).1.read_idx = q.read_idx + (HEADER_SIZE + m.length) ∧
      (q.Pop).1.write_idx = q.write_idx ∧
      (q.Pop).1.buffer = q.buffer) ∧
    ((q.Pop).2 = none ↔
      (q.read_idx = q.write_idx ∨
        q.write_idx < q.read_idx + (HEADER_SIZE +
          decodeHeader (CopyOut q.buffer (q.read_idx % q.buffer.length) HEADER_SIZE)))) ∧
    (q.read_idx = q.write_idx → ∀ k, q.iterPop k = q) := by
  by_cases he : q.read_idx = q.write_idx
  · have hp : q.Pop = (q, none) := by simp [SPSC.Pop, he]
    have hiter : ∀ k, q.iterPop k = q := by
      intro k
      induction k with
      | zero => rfl
      | succ k ih =>
        simp only [SPSC.iterPop, hp]
        exact ih
    exact ⟨fun _ => by rw [hp], fun m hm => by rw [hp] at hm; simp at hm,
      by rw [hp]; simp [he], fun _ => hiter⟩
  · by_cases hg : q.read_idx + (HEADER_SIZE +
        decodeHeader (CopyOut q.buffer (q.read_idx % q.buffer.length) HEADER_SIZE))
        > q.write_idx
    · have hp : q.Pop = (q, none) := by
        simp only [SPSC.Pop]
        rw [if_neg he, if_pos hg]
      refine ⟨fun _ => by rw [hp], fun m hm => by rw [hp] at hm; simp at hm,
        ?_, fun he2 => absurd he2 he⟩
      rw [hp]
      simp only
      constructor
      · intro _; right; exact hg
      · intro _; trivial
    · have hplen : decodeHeader (CopyOut q.buffer
          (q.read_idx % q.buffer.length) HEADER_SIZE) ≤ q.buffer.length := by
        omega
      have hp : q.Pop = ({ q with read_idx := q.read_idx + (HEADER_SIZE +
          decodeHeader (CopyOut q.buffer (q.read_idx % q.buffer.length) HEADER_SIZE)) },
          some (CopyOut q.buffer (q.read_idx % q.buffer.length + HEADER_SIZE)
            (decodeHeader (CopyOut q.buffer (q.read_idx % q.buffer.length)
              HEADER_SIZE)))) := by
        simp only [SPSC.Pop]
        rw [if_neg he, if_neg hg]
      have hlen : (CopyOut q.buffer (q.read_idx % q.buffer.length + HEADER_SIZE)
          (decodeHeader (CopyOut q.buffer (q.read_idx % q.buffer.length)
            HEADER_SIZE))).length
          = decodeHeader (CopyOut q.buffer (q.read_idx % q.buffer.length)
            HEADER_SIZE) :=
        CopyOut_length _ _ _ h0 hplen
      refine ⟨fun hn => by rw [hp] at hn; simp at hn, ?_, ?_,
        fun he2 => absurd he2 he⟩
      · intro m hm
        rw [hp] at hm
        simp only [Option.some.injEq] at hm
        subst hm
        rw [hp, hlen]
        exact ⟨rfl, rfl, rfl⟩
      · rw [hp]
        simp only
        constructor
        · intro hc; simp at hc
        · intro hc
          rcases hc with hc | hc
          · exact absurd hc he
          · exact absurd hc (by omega)

/-- Witness for spsc_pop_contract: popping a concrete empty queue five
times leaves it unchanged. -/
theorem spsc_pop_contract_witness : (SPSC.init 16).iterPop 5 = SPSC.init 16 :=
  (spsc_pop_contract (SPSC.init 16) (by decide) (by decide) (by decide)).2.2.2 rfl 5

/-- C5: the occupancy invariant write_idx - read_idx ∈ [0, N] holds
initially and is preserved by every Push and every Pop: a successful Push
never makes the occupancy exceed the capacity, and a successful Pop never
advances the read counter past the write counter. -/
theorem spsc_occupancy_invariant (n : Nat) (q : SPSC) (m : List Nat) :
    (SPSC.init n).inv ∧ (q.inv → (q.Push m).1.inv) ∧ (q.inv → (q.Pop).1.inv) := by
  refine ⟨⟨Nat.le_refl 0, by simp [SPSC.init]⟩, ?_, ?_⟩
  · intro hinv
    obtain ⟨hle, hocc⟩ := hinv
    by_cases g1 : HEADER_SIZE + m.length > q.buffer.length
    · have hp : q.Push m = (q, false) := by simp [SPSC.Push, g1]
      rw [hp]
      exact ⟨hle, hocc⟩
    · by_cases g2 : (q.write_idx - q.read_idx) + (HEADER_SIZE + m.length)
          > q.buffer.length
      · have hp : q.Push m = (q, false) := by simp [SPSC.Push, g1, g2]
        rw [hp]
        exact ⟨hle, hocc⟩
      · have hp : (q.Push m).1 = ⟨q.read_idx,
            q.write_idx + (HEADER_SIZE + m.length),
            CopyIn
              (CopyIn q.buffer (q.write_idx % q.buffer.length) (encodeHeader m.length))
              (q.write_idx % q.buffer.length + HEADER_SIZE) m⟩ := by
          simp [SPSC.Push, g1, g2]
        rw [hp]
        have hblen : (CopyIn
            (CopyIn q.buffer (q.write_idx % q.buffer.length) (encodeHeader m.length))
            (q.write_idx % q.buffer.length + HEADER_SIZE) m).length
            = q.buffer.length := by
          rw [CopyIn_length, CopyIn_length]
          · rw [encodeHeader_length]; omega
          · rw [CopyIn_length]
            · omega
            · rw [encodeHeader_length]; omega
        refine ⟨by simp; omega, ?_⟩
        simp only [hblen]
        omega
  · intro hinv
    obtain ⟨hle, hocc⟩ := hinv
    by_cases he : q.read_idx = q.write_idx
    · have hp : q.Pop = (q, none) := by simp [SPSC.Pop, he]
      rw [hp]
      exact ⟨hle, hocc⟩
    · by_cases hg : q.read_idx + (HEADER_SIZE +
          decodeHeader (CopyOut q.buffer (q.read_idx % q.buffer.length) HEADER_SIZE))
          > q.write_idx
      · have hp : q.Pop = (q, none) := by
          simp only [SPSC.Pop]
          rw [if_neg he, if_pos hg]
        rw [hp]
        exact ⟨hle, hocc⟩
      · have hp : (q.Pop).1 = { q with read_idx := q.read_idx + (HEADER_SIZE +
            decodeHeader (CopyOut q.buffer (q.read_idx % q.buffer.length)
              HEADER_SIZE)) } := by
          simp only [SPSC.Pop]
          rw [if_neg he, if_neg hg]
        rw [hp]
        exact ⟨by simp; omega, by simp; omega⟩

/-- Witness for spsc_occupancy_invariant at a concrete queue, push and
pop. -/
theorem spsc_occupancy_invariant_witness :
    (SPSC.init 8).inv ∧ ((SPSC.init 8).Push [5]).1.inv ∧
    ((SPSC.init 8).Pop).1.inv :=
  ⟨(spsc_occupancy_invariant 8 (SPSC.init 8) [5]).1,
   (spsc_occupancy_invariant 8 (SPSC.init 8) [5]).2.1
     (spsc_occupancy_invariant 8 (SPSC.init 8) [5]).1,
   (spsc_occupancy_invariant 8 (SPSC.init 8) [5]).2.2
     (spsc_occupancy_invariant 8 (SPSC.init 8) [5]).1⟩

/-- C6: a push whose framed size equals exactly the capacity N succeeds if
and only if the queue is completely empty (write counter equals read
counter) at the time of the call. -/
theorem spsc_push_full_capacity (q : SPSC) (m : List Nat)
    (h1 : q.read_idx ≤ q.write_idx)
    (h2 : HEADER_SIZE + m.length = q.buffer.length) :
    ((q.Push m).2 = true ↔ q.write_idx = q.read_idx) := by
  have g1 : ¬ HEADER_SIZE + m.length > q.buffer.length := by omega
  by_cases g2 : (q.write_idx - q.read_idx) + (HEADER_SIZE + m.length) > q.buffer.length
  · have hp : (q.Push m).2 = false := by simp [SPSC.Push, g1, g2]
    rw [hp]
    simp only [Bool.false_eq_true, false_iff]
    omega
  · have hp : (q.Push m).2 = true := by simp [SPSC.Push, g1, g2]
    rw [hp]
    simp only [true_iff]
    omega

/-- Witness for spsc_push_full_capacity: a full-capacity message on a
concrete empty queue of capacity 8. -/
theorem spsc_push_full_capacity_witness : ((SPSC.init 8).Push []).2 = true :=
  (spsc_push_full_capacity (SPSC.init 8) [] (by decide) (by decide)).mpr rfl

/-- C7: a completed Seqlock::write from a quiescent state (even sequence
counter) stores the new value and leaves the counter even again, advanced
by exactly 2 in uint32 arithmetic; during the write — after the CAS and
after the data store — the counter is odd. -/
theorem seqlock_write_parity {T : Type} (s : Seqlock T) (v : T)
    (heven : s.seq % 2 = 0) (hlt : s.seq < 2 ^ 32) :
    (seqlockWrite s v).data = v ∧
    (seqlockWrite s v).seq = (s.seq + 2) % 2 ^ 32 ∧
    (seqlockWrite s v).seq % 2 = 0 ∧
    (writeBegin s).seq % 2 = 1 ∧
    (writeData (writeBegin s) v).seq % 2 = 1 := by
  have h32 : (2 : Nat) ^ 32 = 4294967296 := by norm_num
  simp only [seqlockWrite, writeEnd, writeData, writeBegin, h32] at *
  refine ⟨?_, ?_, ?_, ?_, ?_⟩ <;> first | trivial | omega

/-- Witness for seqlock_write_parity at a concrete Seqlock over Nat. -/
theorem seqlock_write_parity_witness :
    (seqlockWrite (⟨4, 7⟩ : Seqlock Nat) 9).data = 9 ∧
    (seqlockWrite (⟨4, 7⟩ : Seqlock Nat) 9).seq = 6 := by
  have h := seqlock_write_parity (⟨4, 7⟩ : Seqlock Nat) 9 (by decide) (by norm_num)
  refine ⟨h.1, ?_⟩
  rw [h.2.1]
  norm_num

/-- C8: RCU::update reads the protected value, heap-allocates a fresh copy
(at a previously unallocated address), applies the mutator to the copy,
and publishes it via write, which frees the previous allocation after the
readers have quiesced (reader_count = 0); a read before the update sees the
old value and a read after sees the mutated copy. -/
theorem rcu_update_contract {T : Type} (s : RCUState T) (f : T → T) (v : T)
    (hv : s.heap s.current = some v)
    (hcb : s.current < s.bound)
    (hfresh : s.heap s.bound = none)
    (hq : s.reader_count = 0) :
    RCUState.readValue s = some v ∧
    RCUState.readValue (RCUState.update s f) = some (f v) ∧
    (RCUState.update s f).heap s.current = none ∧
    (RCUState.update s f).current = s.bound ∧
    (RCUState.update s f).current ≠ s.current ∧
    s.heap ((RCUState.update s f).current) = none ∧
    (RCUState.update s f).reader_count = s.reader_count := by
  have hne : s.bound ≠ s.current := by omega
  simp only [RCUState.readValue, RCUState.update, hv, RCUState.write]
  refine ⟨?_, ?_, ?_, ?_, ?_, ?_, ?_⟩ <;>
    first
    | trivial
    | exact hne
    | exact hfresh
    | simp [hne]

/-- Witness for rcu_update_contract: a one-cell heap holding 41, mutated by
adding one. -/
theorem rcu_update_contract_witness :
    RCUState.readValue (RCUState.update
      (⟨fun x => if x = 0 then some 41 else none, 1, 0, 0⟩ : RCUState Nat)
      (fun t => t + 1)) = some 42 ∧
    (RCUState.update
      (⟨fun x => if x = 0 then some 41 else none, 1, 0, 0⟩ : RCUState Nat)
      (fun t => t + 1)).heap 0 = none := by
  have h := rcu_update_contract
    (⟨fun x => if x = 0 then some 41 else none, 1, 0, 0⟩ : RCUState Nat)
    (fun t => t + 1) 41 rfl (by decide) rfl rfl
  exact ⟨h.2.1, h.2.2.1⟩

/-- Every state in a Seqlock writer trace holds either the initial value or
one of the written values: `data` is a `std::atomic<T>`, so each store of
it installs one complete value. -/
theorem writerTrace_data {T : Type} (vs : List T) :
    ∀ (s0 : Seqlock T), ∀ t ∈ writerTrace s0 vs, t.data = s0.data ∨ t.data ∈ vs := by
  induction vs with
  | nil =>
    intro s0 t ht
    simp only [writerTrace, List.mem_singleton] at ht
    subst ht
    left; rfl
  | cons v rest ih =>
    intro s0 t ht
    simp only [writerTrace, List.mem_cons] at ht
    rcases ht with h | h | h | h
    · subst h; left; rfl
    · subst h; left; rfl
    · subst h; right; simp [writeData]
    · rcases ih (seqlockWrite s0 v) t h with h2 | h2
      · right
        rw [h2]
        simp [seqlockWrite, writeEnd, writeData]
      · right
        exact List.mem_cons_of_mem _ h2

/-- C9: for every interleaving of one writer (each write being its three
atomic steps) with a reader's sampling points, every value a successful
read iteration returns equals a value that was fully stored by the writer
at a single point in time — the initial value or one of the written values,
never a torn mixture. -/
theorem seqlock_read_untorn {T : Type} (s0 : Seqlock T) (vs : List T)
    (dflt : Seqlock T) (i j k : Nat) (d : T)
    (hij : i ≤ j) (hjk : j ≤ k) (hk : k < (writerTrace s0 vs).length)
    (hread : readSample (writerTrace s0 vs) dflt i j k = some d) :
    d = s0.data ∨ d ∈ vs := by
  simp only [readSample] at hread
  split_ifs at hread with hc
  simp only [Option.some.injEq] at hread
  subst hread
  have hj : j < (writerTrace s0 vs).length := by omega
  have hmem : (writerTrace s0 vs).getD j dflt ∈ writerTrace s0 vs := by
    rw [List.getD_eq_getElem?_getD, List.getElem?_eq_getElem hj]
    exact List.getElem_mem hj
  exact writerTrace_data vs s0 _ hmem

/-- Witness for seqlock_read_untorn: a concrete trace with one write of 7
over initial value 5, sampled at trace point 0. -/
theorem seqlock_read_untorn_witness : (5 : Nat) = 5 ∨ (5 : Nat) ∈ [7] :=
  seqlock_read_untorn (⟨0, 5⟩ : Seqlock Nat) [7] ⟨0, 5⟩ 0 0 0 5
    (by decide) (by decide) (by decide) (by decide)

/-- C10: on any queue with at least 8 free bytes, pushing a zero-length
payload succeeds, advancing the write counter by exactly the 8 header bytes
and writing only the header into the buffer; after the pending messages are
drained, the next Pop returns a present zero-length message — `some []`,
distinguishable from the empty signal `none` — advancing the read counter
by exactly 8. -/
theorem spsc_push_pop_zero_length (q : SPSC) (ms : List (List Nat))
    (hrep : q.Rep ms)
    (hfree : (q.write_idx - q.read_idx) + HEADER_SIZE ≤ q.buffer.length) :
    (q.Push []).2 = true ∧
    (q.Push []).1.write_idx = q.write_idx + HEADER_SIZE ∧
    (q.Push []).1.buffer =
      CopyIn q.buffer (q.write_idx % q.buffer.length) (encodeHeader 0) ∧
    (popAll (q.Push []).1 ms.length).2 = ms ∧
    ((popAll (q.Push []).1 ms.length).1).Pop =
      (⟨((popAll (q.Push []).1 ms.length).1).read_idx + HEADER_SIZE,
        ((popAll (q.Push []).1 ms.length).1).write_idx,
        ((popAll (q.Push []).1 ms.length).1).buffer⟩,
        some ([] : List Nat)) := by
  have g1 : ¬ q.buffer.length < HEADER_SIZE := by omega
  have g2 : ¬ q.buffer.length < (q.write_idx - q.read_idx) + HEADER_SIZE := by omega
  have hsucc : (q.Push []).2 = true := by
    simp only [SPSC.Push, List.length_nil, Nat.add_zero, add_zero, gt_iff_lt]
    rw [if_neg g1, if_neg g2]
  have hp1 : (q.Push []).1 = ⟨q.read_idx, q.write_idx + HEADER_SIZE,
      CopyIn q.buffer (q.write_idx % q.buffer.length) (encodeHeader 0)⟩ := by
    simp only [SPSC.Push, List.length_nil, Nat.add_zero, add_zero, gt_iff_lt]
    rw [if_neg g1, if_neg g2, CopyIn_nil]
  have hrep2 : (q.Push []).1.Rep (ms ++ [[]]) := SPSC.push_rep q ms [] hrep hsucc
  have hpops := popAll_rep ms (q.Push []).1 [[]] hrep2
  have hlast := SPSC.pop_rep ((popAll (q.Push []).1 ms.length).1) [] [] hpops.2
  refine ⟨hsucc, ?_, ?_, hpops.1, ?_⟩
  · rw [hp1]
  · rw [hp1]
  · rw [hlast.1]
    rfl

/-- Witness for spsc_push_pop_zero_length: a zero-length push on a concrete
empty queue of capacity 16, followed by a Pop returning `some []`. -/
theorem spsc_push_pop_zero_length_witness :
    ((SPSC.init 16).Push []).2 = true ∧
    ((popAll ((SPSC.init 16).Push []).1 0).1).Pop.2 = some ([] : List Nat) := by
  have h := spsc_push_pop_zero_length (SPSC.init 16) []
    (SPSC.rep_init 16 (by norm_num) (by norm_num)) (by decide)
  simp only [List.length_nil] at h
  refine ⟨h.1, ?_⟩
  rw [h.2.2.2.2]
